import Mathlib

/-!
# Verification of the weaktree node module

Shallow embedding of `src/weaktree/node.py`. Nodes are identified by natural
numbers; the mutable heap of node objects is a total function from identifiers
to a record of the fields every `WeakTreeNode` carries (`_trunk`, `_branches`,
`_cleanup_mode`, plus liveness of the weakly referenced data). Mutation is
explicit state passing. Python `set` iteration order is unspecified, so
operations that iterate a set (`_reparent`, the traversals) are parameterised
by the enumeration order, and the theorems quantify over every enumeration.
-/

namespace WeakTree

/-- `CleanupMode` enum from `node.py`. -/
inductive CleanupMode where
  | DEFAULT
  | PRUNE
  | REPARENT
  | NO_CLEANUP
  deriving DecidableEq, Repr

/-- The three concrete cleanup strategies `_get_cleanup_method` can return
(`_prune`, `_reparent`, `_idle`). -/
inductive Strategy where
  | prune
  | reparent
  | idle
  deriving DecidableEq, Repr

/-- The per-object fields of a `WeakTreeNode`: `_trunk` (weak parent link),
`_branches` (set of strong child links), `_cleanup_mode`, and whether the
weakly referenced `_data` is still alive. -/
@[ext]
structure NodeState where
  trunk : Option Nat
  branches : Finset Nat
  mode : CleanupMode
  dataAlive : Bool
  deriving DecidableEq

/-- A blank never-initialised node slot. -/
def blankNode : NodeState :=
  { trunk := none, branches := ∅, mode := CleanupMode.DEFAULT, dataAlive := true }

/-- The heap: every identifier maps to a node record. -/
def State : Type := Nat → NodeState

/-- Write one node record into the heap. -/
def setNode (st : State) (i : Nat) (ns : NodeState) : State :=
  fun j => if j = i then ns else st j

/-- `p._branches.discard(n)`. -/
def eraseBranch (st : State) (p n : Nat) : State :=
  setNode st p { st p with branches := (st p).branches.erase n }

/-- `p._branches.add(n)`. -/
def addBranch (st : State) (p n : Nat) : State :=
  setNode st p { st p with branches := insert n (st p).branches }

/-- The step `if node.trunk: node.trunk._branches.discard(node)` shared by
the `trunk` setter, `_prune` and `_reparent`. -/
def clearFromTrunk (st : State) (n : Nat) : State :=
  match (st n).trunk with
  | some p => eraseBranch st p n
  | none => st

/-- The `trunk` setter of `WeakTreeNode`:
first `if self.trunk: self.trunk._branches.discard(self)`, then either store a
weak reference to the new trunk and add `self` to its `_branches`, or store
`None`. -/
def setTrunk (st : State) (n : Nat) (newTrunk : Option Nat) : State :=
  match newTrunk with
  | some t =>
    addBranch
      (setNode (clearFromTrunk st n) n { (clearFromTrunk st n) n with trunk := some t }) t n
  | none => setNode (clearFromTrunk st n) n { (clearFromTrunk st n) n with trunk := none }

/-- `_idle` from `node.py`: intentionally does nothing. -/
def _idle (st : State) (_ : Nat) : State := st

/-- `_prune` from `node.py`: if the node has a (live) trunk, discard the node
from the trunk's `_branches`; then clear the node's own `_branches`. -/
def _prune (st : State) (n : Nat) : State :=
  setNode (clearFromTrunk st n) n { (clearFromTrunk st n) n with branches := ∅ }

/-- `_reparent` from `node.py`: if the node has a trunk, discard the node from
the trunk's `_branches`; then for every subnode in a copy of the node's
`_branches` (enumerated in the arbitrary order `l`), assign
`subnode.trunk = node.trunk` through the `trunk` setter. -/
def _reparent (st : State) (n : Nat) (l : List Nat) : State :=
  l.foldl (fun s c => setTrunk s c ((s n).trunk)) (clearFromTrunk st n)

/-- `_get_cleanup_method` from `node.py`: match on the given mode; `DEFAULT`
defers to the trunk's stored mode, or prunes at top level. The Python
recursion is unbounded on cyclic heaps, so the embedding carries fuel and
returns `none` exactly when the recursion would not terminate. -/
def _get_cleanup_method : State → Nat → CleanupMode → Nat → Option Strategy
  | _, _, CleanupMode.PRUNE, _ => some Strategy.prune
  | _, _, CleanupMode.REPARENT, _ => some Strategy.reparent
  | _, _, CleanupMode.NO_CLEANUP, _ => some Strategy.idle
  | st, node, CleanupMode.DEFAULT, fuel =>
    match (st node).trunk with
    | none => some Strategy.prune
    | some t =>
      match fuel with
      | 0 => none
      | fuel + 1 => _get_cleanup_method st t ((st t).mode) fuel
  termination_by _ _ _ fuel => fuel

/-- Execute a resolved strategy on a node. `_reparent` iterates the branch
set in ascending identifier order (one admissible enumeration of the Python
set). -/
def applyStrategy (st : State) (n : Nat) : Strategy → State
  | Strategy.prune => _prune st n
  | Strategy.reparent => _reparent st n ((st n).branches.sort (· ≤ ·))
  | Strategy.idle => _idle st n

/-- Observable events of the `_remove` expiry hook. -/
inductive Event where
  | userCallback
  | cleanup (s : Strategy)
  deriving DecidableEq, Repr

/-- `_remove` from `WeakTreeNode.__init__`, the weakref callback installed on
`_data`. `hasCallback` records whether a caller-supplied `callback` was
registered; `selfAlive` is whether `selfref()` still yields the node. The
user callback is invoked first when present; then, only if the node is still
alive, the resolved cleanup strategy is fetched and executed. The returned
event list records what ran, in order. -/
def _remove (hasCallback selfAlive : Bool) (st : State) (n : Nat) (fuel : Nat) :
    State × List Event :=
  let evs := if hasCallback then [Event.userCallback] else []
  if selfAlive then
    match _get_cleanup_method st n ((st n).mode) fuel with
    | some s => (applyStrategy st n s, evs ++ [Event.cleanup s])
    | none => (st, evs)
  else
    (st, evs)

/-- `WeakTreeNode.__init__` on a fresh identifier `n` (the slot is written
blank first): `self._trunk = None`, then the `trunk` setter with the given
trunk, then `self._branches = set()` (already blank), then store the cleanup
mode. -/
def initNode (st : State) (n : Nat) (trunk : Option Nat) (mode : CleanupMode) :
    State :=
  setNode (setTrunk (setNode st n blankNode) n trunk) n
    { (setTrunk (setNode st n blankNode) n trunk) n with mode := mode }

/-- `add_branch` on node `p`: construct a new node with trunk `p`. -/
def add_branch (st : State) (p : Nat) (n : Nat) (mode : CleanupMode) : State :=
  initNode st n (some p) mode

/-- The parent/children consistency invariant of the spec:
`n ∈ p.children ⇔ n.parent == p`. -/
def Consistent (st : State) : Prop :=
  ∀ n p : Nat, n ∈ (st p).branches ↔ (st n).trunk = some p

/-!
## Traversal engine

`TreeIterable.breadth` / `TreeIterable.depth` / `TreeIterable.towards_root`
from `node.py`. The traversals read `node.branches` (a `set`) live; the
embedding abstracts the heap's branch sets as `br : Nat → List Nat`, the
branch set of each node in whatever order Python's set iteration yields it.
The queue/stack loops terminate only on finite acyclic heaps, so each
carries fuel; with enough fuel relative to the tree being traversed the
fuel case is never reached (proved below). -/

/-- `TreeIterable.breadth`: a FIFO queue seeded with the starting nodes;
pop left, emit, extend on the right with the node's branches. -/
def breadth (br : Nat → List Nat) : Nat → List Nat → List Nat
  | 0, _ => []
  | _ + 1, [] => []
  | fuel + 1, n :: queue => n :: breadth br fuel (queue ++ br n)

/-- `TreeIterable.depth`: a LIFO stack seeded with the starting nodes;
`stack.pop()` pops the Python list's last element and `stack.extend` appends,
so with the Lean list head as the Python top of stack a node's branches are
pushed in reverse enumeration order. -/
def depth (br : Nat → List Nat) : Nat → List Nat → List Nat
  | 0, _ => []
  | _ + 1, [] => []
  | fuel + 1, n :: stack => n :: depth br fuel ((br n).reverse ++ stack)

/-- `TreeIterable.towards_root`: emit the current node, then follow the
trunk link until it is absent. -/
def towards_root (trunkOf : Nat → Option Nat) : Nat → Nat → List Nat
  | 0, _ => []
  | fuel + 1, n =>
    n :: (match trunkOf n with
          | some p => towards_root trunkOf fuel p
          | none => [])

/-- A finite rooted tree of node identifiers: the witness that the portion of
the heap below a starting node is finite and acyclic. -/
inductive PTree where
  | node : Nat → List PTree → PTree

/-- Root identifier of a `PTree`. -/
def PTree.id : PTree → Nat
  | .node n _ => n

mutual

/-- All identifiers of a `PTree`, root first. -/
def PTree.nodes : PTree → List Nat
  | .node n ts => n :: PTree.forestNodes ts

/-- All identifiers of a forest, in order. -/
def PTree.forestNodes : List PTree → List Nat
  | [] => []
  | t :: ts => PTree.nodes t ++ PTree.forestNodes ts

end

mutual

/-- Number of nodes of a `PTree`. -/
def PTree.size : PTree → Nat
  | .node _ ts => 1 + PTree.forestSize ts

/-- Total number of nodes of a forest. -/
def PTree.forestSize : List PTree → Nat
  | [] => 0
  | t :: ts => PTree.size t + PTree.forestSize ts

end

/-- `Represents br t` states that `t` is exactly the unfolding of the heap's
branch structure from `t.id`: at every vertex, the enumeration `br` of the
branch set lists precisely the roots of the subtrees. -/
def Represents (br : Nat → List Nat) : PTree → Prop
  | .node n ts => ts.map PTree.id = br n ∧ ∀ t ∈ ts, Represents br t

/-- `AncChain trunkOf n l`: `l` is the ancestor chain of `n`, starting at `n`
itself, following `trunkOf`, and ending at a parentless node. -/
inductive AncChain (trunkOf : Nat → Option Nat) : Nat → List Nat → Prop where
  | top {n : Nat} : trunkOf n = none → AncChain trunkOf n [n]
  | step {n p : Nat} {l : List Nat} :
      trunkOf n = some p → AncChain trunkOf p l → AncChain trunkOf n (n :: l)

/-- The stored mode of a node mapped to the strategy it forces, `none` for
`DEFAULT`. Written from the spec's wording of effective-mode resolution, to
be compared with the code's `_get_cleanup_method`. -/
def modeStrategy : CleanupMode → Option Strategy
  | CleanupMode.PRUNE => some Strategy.prune
  | CleanupMode.REPARENT => some Strategy.reparent
  | CleanupMode.NO_CLEANUP => some Strategy.idle
  | CleanupMode.DEFAULT => none

/-- Effective-mode resolution as the spec words it: the strategy of the first
node along the ancestor chain whose stored mode is not `DEFAULT`, and `Prune`
when every node of the chain stores `DEFAULT`. -/
def specResolve (st : State) : List Nat → Strategy
  | [] => Strategy.prune
  | n :: rest => (modeStrategy ((st n).mode)).getD (specResolve st rest)

/-!
## Concrete example heaps (used by the witnesses)
-/

/-- A three-node chain `0 ← 1 ← 2`, every mode `DEFAULT`. -/
def ex3 : State := fun m =>
  match m with
  | 0 => { trunk := none, branches := {1}, mode := CleanupMode.DEFAULT, dataAlive := true }
  | 1 => { trunk := some 0, branches := {2}, mode := CleanupMode.DEFAULT, dataAlive := true }
  | 2 => { trunk := some 1, branches := ∅, mode := CleanupMode.DEFAULT, dataAlive := true }
  | _ => blankNode

/-- A three-node chain `0 ← 1 ← 2` whose top stores `REPARENT` and whose
lower nodes store `DEFAULT`. -/
def exChain : State := fun m =>
  match m with
  | 0 => { trunk := none, branches := {1}, mode := CleanupMode.REPARENT, dataAlive := true }
  | 1 => { trunk := some 0, branches := {2}, mode := CleanupMode.DEFAULT, dataAlive := true }
  | 2 => { trunk := some 1, branches := ∅, mode := CleanupMode.DEFAULT, dataAlive := true }
  | _ => blankNode

/-- Branch enumeration of the chain heap, for traversal witnesses. -/
def brEx : Nat → List Nat := fun m =>
  match m with
  | 0 => [1]
  | 1 => [2]
  | _ => []

/-- The chain heap as a `PTree`. -/
def tEx : PTree := PTree.node 0 [PTree.node 1 [PTree.node 2 []]]

/-!
## Frame lemmas for the heap primitives
-/

theorem setNode_same (st : State) (i : Nat) (ns : NodeState) :
    setNode st i ns i = ns := by
  simp [setNode]

theorem setNode_ne (st : State) (i j : Nat) (ns : NodeState) (h : j ≠ i) :
    setNode st i ns j = st j := by
  simp [setNode, h]

theorem eraseBranch_apply_ne (st : State) (p n m : Nat) (h : m ≠ p) :
    eraseBranch st p n m = st m := by
  simp [eraseBranch, setNode, h]

theorem eraseBranch_trunk (st : State) (p n m : Nat) :
    ((eraseBranch st p n) m).trunk = (st m).trunk := by
  by_cases h : m = p <;> simp [eraseBranch, setNode, h]

theorem eraseBranch_mode (st : State) (p n m : Nat) :
    ((eraseBranch st p n) m).mode = (st m).mode := by
  by_cases h : m = p <;> simp [eraseBranch, setNode, h]

theorem eraseBranch_dataAlive (st : State) (p n m : Nat) :
    ((eraseBranch st p n) m).dataAlive = (st m).dataAlive := by
  by_cases h : m = p <;> simp [eraseBranch, setNode, h]

theorem eraseBranch_branches (st : State) (p n m : Nat) :
    ((eraseBranch st p n) m).branches =
      if m = p then (st p).branches.erase n else (st m).branches := by
  by_cases h : m = p <;> simp [eraseBranch, setNode, h]

theorem addBranch_apply_ne (st : State) (p n m : Nat) (h : m ≠ p) :
    addBranch st p n m = st m := by
  simp [addBranch, setNode, h]

theorem addBranch_trunk (st : State) (p n m : Nat) :
    ((addBranch st p n) m).trunk = (st m).trunk := by
  by_cases h : m = p <;> simp [addBranch, setNode, h]

theorem addBranch_mode (st : State) (p n m : Nat) :
    ((addBranch st p n) m).mode = (st m).mode := by
  by_cases h : m = p <;> simp [addBranch, setNode, h]

theorem addBranch_dataAlive (st : State) (p n m : Nat) :
    ((addBranch st p n) m).dataAlive = (st m).dataAlive := by
  by_cases h : m = p <;> simp [addBranch, setNode, h]

theorem addBranch_branches (st : State) (p n m : Nat) :
    ((addBranch st p n) m).branches =
      if m = p then insert n (st p).branches else (st m).branches := by
  by_cases h : m = p <;> simp [addBranch, setNode, h]

theorem clearFromTrunk_trunk (st : State) (n m : Nat) :
    ((clearFromTrunk st n) m).trunk = (st m).trunk := by
  unfold clearFromTrunk
  cases (st n).trunk with
  | none => rfl
  | some p => exact eraseBranch_trunk st p n m

theorem clearFromTrunk_mode (st : State) (n m : Nat) :
    ((clearFromTrunk st n) m).mode = (st m).mode := by
  unfold clearFromTrunk
  cases (st n).trunk with
  | none => rfl
  | some p => exact eraseBranch_mode st p n m

theorem clearFromTrunk_dataAlive (st : State) (n m : Nat) :
    ((clearFromTrunk st n) m).dataAlive = (st m).dataAlive := by
  unfold clearFromTrunk
  cases (st n).trunk with
  | none => rfl
  | some p => exact eraseBranch_dataAlive st p n m

theorem clearFromTrunk_apply_ne (st : State) (n m : Nat)
    (h : (st n).trunk ≠ some m) : clearFromTrunk st n m = st m := by
  unfold clearFromTrunk
  cases htr : (st n).trunk with
  | none => rfl
  | some p =>
    refine eraseBranch_apply_ne st p n m ?_
    intro hmp
    exact h (by rw [htr, hmp])

theorem clearFromTrunk_of_none (st : State) (n : Nat)
    (h : (st n).trunk = none) : clearFromTrunk st n = st := by
  unfold clearFromTrunk
  rw [h]

theorem clearFromTrunk_parent (st : State) (n p : Nat)
    (h : (st n).trunk = some p) :
    clearFromTrunk st n p = { st p with branches := (st p).branches.erase n } := by
  unfold clearFromTrunk
  rw [h]
  simp [eraseBranch, setNode]

theorem setTrunk_mode (st : State) (n : Nat) (t' : Option Nat) (m : Nat) :
    ((setTrunk st n t') m).mode = (st m).mode := by
  cases t' with
  | some t =>
    rw [setTrunk, addBranch_mode]
    by_cases hm : m = n
    · rw [hm, setNode_same]; exact clearFromTrunk_mode st n n
    · rw [setNode_ne _ _ _ _ hm]; exact clearFromTrunk_mode st n m
  | none =>
    rw [setTrunk]
    by_cases hm : m = n
    · rw [hm, setNode_same]; exact clearFromTrunk_mode st n n
    · rw [setNode_ne _ _ _ _ hm]; exact clearFromTrunk_mode st n m

theorem setTrunk_dataAlive (st : State) (n : Nat) (t' : Option Nat) (m : Nat) :
    ((setTrunk st n t') m).dataAlive = (st m).dataAlive := by
  cases t' with
  | some t =>
    rw [setTrunk, addBranch_dataAlive]
    by_cases hm : m = n
    · rw [hm, setNode_same]; exact clearFromTrunk_dataAlive st n n
    · rw [setNode_ne _ _ _ _ hm]; exact clearFromTrunk_dataAlive st n m
  | none =>
    rw [setTrunk]
    by_cases hm : m = n
    · rw [hm, setNode_same]; exact clearFromTrunk_dataAlive st n n
    · rw [setNode_ne _ _ _ _ hm]; exact clearFromTrunk_dataAlive st n m

theorem setTrunk_trunk_ne (st : State) (n : Nat) (t' : Option Nat) (m : Nat)
    (hm : m ≠ n) : ((setTrunk st n t') m).trunk = (st m).trunk := by
  cases t' with
  | some t =>
    rw [setTrunk, addBranch_trunk, setNode_ne _ _ _ _ hm]
    exact clearFromTrunk_trunk st n m
  | none =>
    rw [setTrunk, setNode_ne _ _ _ _ hm]
    exact clearFromTrunk_trunk st n m

theorem setTrunk_trunk_self (st : State) (n : Nat) (t' : Option Nat) :
    ((setTrunk st n t') n).trunk = t' := by
  cases t' with
  | some t => rw [setTrunk, addBranch_trunk, setNode_same]
  | none => rw [setTrunk, setNode_same]

/-- Full effect of `setTrunk s c (some p)` when `c` currently hangs under `n`
and `c`, `n`, `p` are three distinct nodes. -/
theorem setTrunk_relink (s : State) (c n p : Nat) (hct : (s c).trunk = some n)
    (hnc : n ≠ c) (hpc : p ≠ c) (hnp : n ≠ p) :
    (∀ m, m ≠ c → m ≠ n → m ≠ p → setTrunk s c (some p) m = s m)
  ∧ setTrunk s c (some p) c = { s c with trunk := some p }
  ∧ setTrunk s c (some p) n = { s n with branches := (s n).branches.erase c }
  ∧ setTrunk s c (some p) p = { s p with branches := insert c (s p).branches } := by
  have hclr_ne : ∀ m, m ≠ n → clearFromTrunk s c m = s m := by
    intro m hm
    refine clearFromTrunk_apply_ne s c m ?_
    rw [hct]
    intro hcontra
    exact hm (Option.some.inj hcontra).symm
  have hclr_n : clearFromTrunk s c n =
      { s n with branches := (s n).branches.erase c } :=
    clearFromTrunk_parent s c n hct
  refine ⟨?_, ?_, ?_, ?_⟩
  · intro m hmc hmn hmp
    rw [setTrunk, addBranch_apply_ne _ _ _ _ hmp, setNode_ne _ _ _ _ hmc]
    exact hclr_ne m hmn
  · rw [setTrunk, addBranch_apply_ne _ _ _ _ (fun h => hpc h.symm), setNode_same,
      hclr_ne c (fun h => hnc h.symm)]
  · rw [setTrunk, addBranch_apply_ne _ _ _ _ hnp, setNode_ne _ _ _ _ hnc]
    exact hclr_n
  · have hpn : p ≠ n := fun h => hnp h.symm
    have h1 : setNode (clearFromTrunk s c) c
        { (clearFromTrunk s c) c with trunk := some p } p = s p := by
      rw [setNode_ne _ _ _ _ hpc]
      exact hclr_ne p hpn
    rw [setTrunk, addBranch, h1, setNode_same]

/-- Full effect of `setTrunk s c none` when `c` currently hangs under
`n ≠ c`. -/
theorem setTrunk_unlink (s : State) (c n : Nat) (hct : (s c).trunk = some n)
    (hnc : n ≠ c) :
    (∀ m, m ≠ c → m ≠ n → setTrunk s c none m = s m)
  ∧ setTrunk s c none c = { s c with trunk := none }
  ∧ setTrunk s c none n = { s n with branches := (s n).branches.erase c } := by
  have hclr_ne : ∀ m, m ≠ n → clearFromTrunk s c m = s m := by
    intro m hm
    refine clearFromTrunk_apply_ne s c m ?_
    rw [hct]
    intro hcontra
    exact hm (Option.some.inj hcontra).symm
  refine ⟨?_, ?_, ?_⟩
  · intro m hmc hmn
    rw [setTrunk, setNode_ne _ _ _ _ hmc]
    exact hclr_ne m hmn
  · rw [setTrunk, setNode_same]
    rw [hclr_ne c (fun h => hnc h.symm)]
  · rw [setTrunk, setNode_ne _ _ _ _ hnc]
    exact clearFromTrunk_parent s c n hct

theorem setNode_self (st : State) (i : Nat) : setNode st i (st i) = st := by
  funext j
  by_cases h : j = i <;> simp [setNode, h]

theorem clearFromTrunk_branches (st : State) (n b : Nat) :
    ((clearFromTrunk st n) b).branches =
      if (st n).trunk = some b then (st b).branches.erase n
      else (st b).branches := by
  cases htr : (st n).trunk with
  | none =>
    rw [clearFromTrunk_of_none st n htr]
    simp
  | some p =>
    by_cases hb : b = p
    · subst hb
      rw [clearFromTrunk_parent st n b htr]
      simp
    · have hne : (st n).trunk ≠ some b := by
        rw [htr]
        intro h
        exact hb (Option.some.inj h).symm
      rw [clearFromTrunk_apply_ne st n b hne,
        if_neg (fun h : (some p : Option Nat) = some b => hb (Option.some.inj h).symm)]

theorem setTrunk_branches (st : State) (n : Nat) (t' : Option Nat) (b : Nat) :
    ((setTrunk st n t') b).branches =
      if t' = some b then
        insert n (if (st n).trunk = some b then (st b).branches.erase n
                  else (st b).branches)
      else
        (if (st n).trunk = some b then (st b).branches.erase n
         else (st b).branches) := by
  have hmid : ∀ (u : Option Nat) (m : Nat),
      ((setNode (clearFromTrunk st n) n
        { (clearFromTrunk st n) n with trunk := u }) m).branches =
      ((clearFromTrunk st n) m).branches := by
    intro u m
    by_cases hm : m = n
    · rw [hm, setNode_same]
    · rw [setNode_ne _ _ _ _ hm]
  cases t' with
  | none =>
    rw [setTrunk, hmid none b]
    simp [clearFromTrunk_branches]
  | some t =>
    have h1 : ((setTrunk st n (some t)) b).branches =
        if b = t then insert n ((clearFromTrunk st n) t).branches
        else ((clearFromTrunk st n) b).branches := by
      rw [setTrunk, addBranch_branches]
      by_cases hb : b = t
      · rw [if_pos hb, if_pos hb, hmid]
      · rw [if_neg hb, if_neg hb, hmid]
    rw [h1]
    by_cases hb : b = t
    · subst hb
      rw [if_pos rfl, clearFromTrunk_branches]
      simp
    · have hne : ¬ ((some t : Option Nat) = some b) := by
        intro h
        exact hb (Option.some.inj h).symm
      rw [if_neg hb, clearFromTrunk_branches, if_neg hne]

theorem setTrunk_trunk (st : State) (n : Nat) (t' : Option Nat) (a : Nat) :
    ((setTrunk st n t') a).trunk = if a = n then t' else (st a).trunk := by
  by_cases ha : a = n
  · rw [ha, setTrunk_trunk_self]; simp
  · rw [setTrunk_trunk_ne st n t' a ha]; simp [ha]

/-- The `trunk` setter preserves the parent/children consistency invariant,
for every heap, node and new trunk. -/
theorem setTrunk_consistent (st : State) (n : Nat) (t' : Option Nat)
    (hc : Consistent st) : Consistent (setTrunk st n t') := by
  intro a b
  rw [setTrunk_branches, setTrunk_trunk]
  by_cases ha : a = n
  · rw [if_pos ha]
    by_cases hT : t' = some b
    · rw [if_pos hT]
      simp [ha, hT]
    · rw [if_neg hT]
      by_cases hO : (st n).trunk = some b
      · rw [if_pos hO]
        simp [ha, hT]
      · rw [if_neg hO, hc a b, ha]
        simp [hO, hT]
  · rw [if_neg ha]
    by_cases hT : t' = some b
    · rw [if_pos hT]
      by_cases hO : (st n).trunk = some b
      · rw [if_pos hO]
        simp [Finset.mem_insert, Finset.mem_erase, ha, hc a b]
      · rw [if_neg hO]
        simp [Finset.mem_insert, ha, hc a b]
    · rw [if_neg hT]
      by_cases hO : (st n).trunk = some b
      · rw [if_pos hO]
        simp [Finset.mem_erase, ha, hc a b]
      · rw [if_neg hO]
        exact hc a b

/-- Consistency only mentions `trunk` and `branches`, so it transfers along
pointwise agreement of those two fields. -/
theorem consistent_of_fields (st st' : State)
    (ht : ∀ m, (st' m).trunk = (st m).trunk)
    (hb : ∀ m, (st' m).branches = (st m).branches)
    (hc : Consistent st) : Consistent st' := by
  intro a b
  rw [hb, ht]
  exact hc a b

/-- Construction of a node on a fresh (blank) identifier preserves the
consistency invariant. -/
theorem initNode_consistent (st : State) (n : Nat) (tr : Option Nat)
    (mode : CleanupMode) (hc : Consistent st) (hfresh : st n = blankNode) :
    Consistent (initNode st n tr mode) := by
  have hstep : setNode st n blankNode = st := by
    rw [← hfresh, setNode_self]
  unfold initNode
  rw [hstep]
  refine consistent_of_fields (setTrunk st n tr) _ ?_ ?_
    (setTrunk_consistent st n tr hc)
  · intro m
    by_cases hm : m = n
    · rw [hm, setNode_same]
    · rw [setNode_ne _ _ _ _ hm]
  · intro m
    by_cases hm : m = n
    · rw [hm, setNode_same]
    · rw [setNode_ne _ _ _ _ hm]

theorem ex3_consistent : Consistent ex3 := by
  intro a b
  rcases a with _ | _ | _ | a <;> rcases b with _ | _ | _ | b <;>
    simp [ex3, blankNode]

theorem exChain_consistent : Consistent exChain := by
  intro a b
  rcases a with _ | _ | _ | a <;> rcases b with _ | _ | _ | b <;>
    simp [exChain, blankNode]

/-!
## Claim theorems
-/

/-- Claim C1: effective cleanup-mode resolution. A stored `PRUNE`, `REPARENT`
or `NO_CLEANUP` mode resolves to `Prune`, `Reparent` or `Idle` respectively,
and for a node whose ancestor chain is `l`, `_get_cleanup_method` resolves to
the strategy of the nearest node along the chain whose stored mode is not
`DEFAULT`, `Prune` when all of them store `DEFAULT` (the form `specResolve`
states in the spec's words). -/
theorem cleanup_mode_resolution (st : State) (n : Nat) (l : List Nat)
    (fuel : Nat) (hchain : AncChain (fun m => (st m).trunk) n l)
    (hfuel : l.length ≤ fuel) :
    ((st n).mode = CleanupMode.PRUNE →
      _get_cleanup_method st n ((st n).mode) fuel = some Strategy.prune)
  ∧ ((st n).mode = CleanupMode.REPARENT →
      _get_cleanup_method st n ((st n).mode) fuel = some Strategy.reparent)
  ∧ ((st n).mode = CleanupMode.NO_CLEANUP →
      _get_cleanup_method st n ((st n).mode) fuel = some Strategy.idle)
  ∧ _get_cleanup_method st n ((st n).mode) fuel = some (specResolve st l) := by
  refine ⟨?_, ?_, ?_, ?_⟩
  · intro h; rw [h]; simp [_get_cleanup_method]
  · intro h; rw [h]; simp [_get_cleanup_method]
  · intro h; rw [h]; simp [_get_cleanup_method]
  · induction hchain generalizing fuel with
    | top htop =>
      cases hmode : (st _).mode <;>
        simp [_get_cleanup_method, specResolve, modeStrategy, hmode, htop]
    | step hstep _ ih =>
      rename_i a p l' _
      cases hmode : (st a).mode
      case PRUNE => simp [_get_cleanup_method, specResolve, modeStrategy, hmode]
      case REPARENT => simp [_get_cleanup_method, specResolve, modeStrategy, hmode]
      case NO_CLEANUP => simp [_get_cleanup_method, specResolve, modeStrategy, hmode]
      case DEFAULT =>
        obtain ⟨fuel', rfl⟩ : ∃ fuel', fuel = fuel' + 1 := by
          cases fuel with
          | zero => simp at hfuel
          | succ k => exact ⟨k, rfl⟩
        have hrec : _get_cleanup_method st a CleanupMode.DEFAULT (fuel' + 1) =
            _get_cleanup_method st p ((st p).mode) fuel' := by
          simp [_get_cleanup_method, hstep]
        rw [hrec]
        have hfuel' : l'.length ≤ fuel' := by
          simp at hfuel
          omega
        rw [ih fuel' hfuel']
        simp [specResolve, modeStrategy, hmode]

/-- Witness for C1: the chain `DEFAULT → DEFAULT → REPARENT` of the heap
`exChain` resolves to `Reparent` for the deepest node. -/
theorem cleanup_mode_resolution_witness :
    _get_cleanup_method exChain 2 ((exChain 2).mode) 3 = some Strategy.reparent := by
  have hchain : AncChain (fun m => (exChain m).trunk) 2 [2, 1, 0] := by
    refine AncChain.step rfl (AncChain.step rfl (AncChain.top rfl))
  have h := (cleanup_mode_resolution exChain 2 [2, 1, 0] 3 hchain (by simp)).2.2.2
  simpa [specResolve, modeStrategy, exChain] using h

/-- Claim C9: relink idempotence. On a consistent heap, re-assigning a node's
current trunk through the `trunk` setter leaves the whole heap unchanged; in
particular the node's trunk is still `p`, the node is still in `p`'s branch
set, and no other node's fields differ. -/
theorem setTrunk_idempotent (st : State) (n p : Nat) (hc : Consistent st)
    (h : (st n).trunk = some p) :
    setTrunk st n (some p) = st
  ∧ ((setTrunk st n (some p)) n).trunk = some p
  ∧ n ∈ ((setTrunk st n (some p)) p).branches := by
  have heq : setTrunk st n (some p) = st := by
    funext m
    apply NodeState.ext
    · rw [setTrunk_trunk]
      by_cases hm : m = n
      · rw [if_pos hm, hm, h]
      · rw [if_neg hm]
    · rw [setTrunk_branches]
      by_cases hm : p = m
      · have hcond : (some p : Option Nat) = some m := by rw [hm]
        rw [if_pos hcond]
        have htr : (st n).trunk = some m := by rw [h, hm]
        rw [if_pos htr]
        exact Finset.insert_erase ((hc n m).2 htr)
      · have hcond : ¬ ((some p : Option Nat) = some m) := by
          intro hcontra
          exact hm (Option.some.inj hcontra)
        have htr : ¬ ((st n).trunk = some m) := by
          rw [h]
          exact hcond
        rw [if_neg hcond, if_neg htr]
    · exact setTrunk_mode st n (some p) m
    · exact setTrunk_dataAlive st n (some p) m
  refine ⟨heq, ?_, ?_⟩
  · rw [heq]
    exact h
  · rw [heq]
    exact (hc n p).2 h

/-- Witness for C9: relinking node 1 of `ex3` to its current trunk 0 is the
identity. -/
theorem setTrunk_idempotent_witness :
    setTrunk ex3 1 (some 0) = ex3
  ∧ ((setTrunk ex3 1 (some 0)) 1).trunk = some 0
  ∧ 1 ∈ ((setTrunk ex3 1 (some 0)) 0).branches :=
  setTrunk_idempotent ex3 1 0 ex3_consistent rfl

theorem _prune_trunk (st : State) (n m : Nat) :
    ((_prune st n) m).trunk = (st m).trunk := by
  unfold _prune
  by_cases hm : m = n
  · rw [hm, setNode_same]
    exact clearFromTrunk_trunk st n n
  · rw [setNode_ne _ _ _ _ hm]
    exact clearFromTrunk_trunk st n m

theorem _prune_mode (st : State) (n m : Nat) :
    ((_prune st n) m).mode = (st m).mode := by
  unfold _prune
  by_cases hm : m = n
  · rw [hm, setNode_same]
    exact clearFromTrunk_mode st n n
  · rw [setNode_ne _ _ _ _ hm]
    exact clearFromTrunk_mode st n m

theorem _prune_dataAlive (st : State) (n m : Nat) :
    ((_prune st n) m).dataAlive = (st m).dataAlive := by
  unfold _prune
  by_cases hm : m = n
  · rw [hm, setNode_same]
    exact clearFromTrunk_dataAlive st n n
  · rw [setNode_ne _ _ _ _ hm]
    exact clearFromTrunk_dataAlive st n m

theorem _prune_branches (st : State) (n m : Nat) :
    ((_prune st n) m).branches =
      if m = n then ∅
      else if (st n).trunk = some m then (st m).branches.erase n
      else (st m).branches := by
  unfold _prune
  by_cases hm : m = n
  · rw [hm, setNode_same, if_pos rfl]
  · rw [setNode_ne _ _ _ _ hm, if_neg hm]
    exact clearFromTrunk_branches st n m

/-- Claim C2: the `Prune` strategy on node `n` of a consistent heap removes
`n` from its trunk's branch set when a trunk exists, empties `n`'s own branch
set, and leaves every former child in no branch set at all while the child's
own trunk link still refers to `n`. -/
theorem prune_spec (st : State) (n : Nat) (hc : Consistent st) :
    (∀ p, (st n).trunk = some p → n ∉ ((_prune st n) p).branches)
  ∧ ((_prune st n) n).branches = ∅
  ∧ (∀ c ∈ (st n).branches,
      (∀ m, c ∉ ((_prune st n) m).branches)
    ∧ ((_prune st n) c).trunk = some n) := by
  refine ⟨?_, ?_, ?_⟩
  · intro p hp
    rw [_prune_branches]
    by_cases hpn : p = n
    · rw [if_pos hpn]
      exact Finset.not_mem_empty n
    · rw [if_neg hpn, if_pos hp]
      simp
  · rw [_prune_branches, if_pos rfl]
  · intro c hcmem
    have hct : (st c).trunk = some n := (hc c n).1 hcmem
    refine ⟨?_, ?_⟩
    · intro m
      rw [_prune_branches]
      by_cases hm : m = n
      · rw [if_pos hm]
        exact Finset.not_mem_empty c
      · rw [if_neg hm]
        have hnotm : c ∉ (st m).branches := by
          intro hmem
          exact hm (Option.some.inj (hct ▸ (hc c m).1 hmem : some n = some m)).symm
        by_cases htr : (st n).trunk = some m
        · rw [if_pos htr]
          intro hmem
          exact hnotm (Finset.mem_of_mem_erase hmem)
        · rw [if_neg htr]
          exact hnotm
    · rw [_prune_trunk]
      exact hct

/-- Witness for C2: pruning node 1 of `ex3` (trunk 0, child 2). -/
theorem prune_spec_witness :
    (∀ p, (ex3 1).trunk = some p → 1 ∉ ((_prune ex3 1) p).branches)
  ∧ ((_prune ex3 1) 1).branches = ∅
  ∧ (∀ c ∈ (ex3 1).branches,
      (∀ m, c ∉ ((_prune ex3 1) m).branches)
    ∧ ((_prune ex3 1) c).trunk = some 1) :=
  prune_spec ex3 1 ex3_consistent

theorem relink_foldl_mode (n : Nat) (l : List Nat) :
    ∀ (s : State) (m : Nat),
      ((l.foldl (fun s c => setTrunk s c ((s n).trunk)) s) m).mode = (s m).mode := by
  induction l with
  | nil => intro s m; rfl
  | cons c rest ih =>
    intro s m
    rw [List.foldl_cons, ih]
    exact setTrunk_mode s c ((s n).trunk) m

theorem relink_foldl_dataAlive (n : Nat) (l : List Nat) :
    ∀ (s : State) (m : Nat),
      ((l.foldl (fun s c => setTrunk s c ((s n).trunk)) s) m).dataAlive =
        (s m).dataAlive := by
  induction l with
  | nil => intro s m; rfl
  | cons c rest ih =>
    intro s m
    rw [List.foldl_cons, ih]
    exact setTrunk_dataAlive s c ((s n).trunk) m

theorem relink_foldl_trunk (n : Nat) (l : List Nat) :
    ∀ (s : State) (m : Nat), m ∉ l →
      ((l.foldl (fun s c => setTrunk s c ((s n).trunk)) s) m).trunk =
        (s m).trunk := by
  induction l with
  | nil => intro s m _; rfl
  | cons c rest ih =>
    intro s m hm
    rw [List.foldl_cons, ih _ m (fun h => hm (List.mem_cons_of_mem c h))]
    exact setTrunk_trunk_ne s c ((s n).trunk) m
      (fun h => hm (h ▸ List.mem_cons_self c rest))

/-- Counterexample to C4 as stated: the heap `ex3` is consistent, but after
the `Prune` cleanup strategy executes on node 1 the invariant fails — node
1's trunk link still reads `some 0` while 1 is gone from 0's branch set. -/
theorem consistency_after_prune_counterexample :
    Consistent ex3 ∧ ¬ Consistent (_prune ex3 1) := by
  refine ⟨ex3_consistent, ?_⟩
  intro h
  have h2 := (h 1 0).2 (by decide)
  exact absurd h2 (by decide)

/-- Claim C4 (amended): the parent/children consistency invariant holds after
node construction, after add-child, after every relink, and after the `Idle`
cleanup strategy; the `Prune` and `Reparent` strategies do not preserve it
(the expired node, and for `Prune` its surviving former children, keep stale
trunk links). -/
theorem consistency_preservation :
    (∀ st n t', Consistent st → Consistent (setTrunk st n t'))
  ∧ (∀ st n tr mode, Consistent st → st n = blankNode →
      Consistent (initNode st n tr mode))
  ∧ (∀ st p n mode, Consistent st → st n = blankNode →
      Consistent (add_branch st p n mode))
  ∧ (∀ st n, Consistent st → Consistent (_idle st n)) :=
  ⟨fun st n t' hc => setTrunk_consistent st n t' hc,
   fun st n tr mode hc hf => initNode_consistent st n tr mode hc hf,
   fun st p n mode hc hf => initNode_consistent st n (some p) mode hc hf,
   fun _ _ hc => hc⟩

/-- Witness for C4 (amended): a relink and an add-child on `ex3` preserve
consistency. -/
theorem consistency_preservation_witness :
    Consistent (setTrunk ex3 2 (some 0))
  ∧ Consistent (add_branch ex3 2 3 CleanupMode.PRUNE) := by
  have h := consistency_preservation
  exact ⟨h.1 ex3 2 (some 0) ex3_consistent,
    h.2.2.1 ex3 2 3 CleanupMode.PRUNE ex3_consistent rfl⟩

theorem relink_fold_some (n p : Nat) (l : List Nat) :
    ∀ (s : State), l.Nodup → n ∉ l → p ∉ l → n ≠ p →
      (s n).trunk = some p →
      (∀ c ∈ l, (s c).trunk = some n) →
      (∀ m, m ≠ n → m ≠ p → m ∉ l →
        (l.foldl (fun s c => setTrunk s c ((s n).trunk)) s) m = s m)
    ∧ (∀ c ∈ l,
        ((l.foldl (fun s c => setTrunk s c ((s n).trunk)) s) c).trunk = some p
      ∧ ((l.foldl (fun s c => setTrunk s c ((s n).trunk)) s) c).branches =
          (s c).branches)
    ∧ ((l.foldl (fun s c => setTrunk s c ((s n).trunk)) s) n).branches =
        (s n).branches \ l.toFinset
    ∧ ((l.foldl (fun s c => setTrunk s c ((s n).trunk)) s) p).branches =
        (s p).branches ∪ l.toFinset := by
  induction l with
  | nil =>
    intro s _ _ _ _ _ _
    refine ⟨fun m _ _ _ => rfl, fun c hc => absurd hc (List.not_mem_nil c),
      ?_, ?_⟩
    · simp
    · simp
  | cons c rest ih =>
    intro s hnd hnl hpl hnp hsn hall
    have hcmem : c ∈ c :: rest := List.mem_cons_self c rest
    have hcn : n ≠ c := fun h => hnl (h ▸ hcmem)
    have hcp : p ≠ c := fun h => hpl (h ▸ hcmem)
    have hct : (s c).trunk = some n := hall c hcmem
    have hcrest : c ∉ rest := (List.nodup_cons.mp hnd).1
    have hndrest : rest.Nodup := (List.nodup_cons.mp hnd).2
    have hnrest : n ∉ rest := fun h => hnl (List.mem_cons_of_mem c h)
    have hprest : p ∉ rest := fun h => hpl (List.mem_cons_of_mem c h)
    obtain ⟨hframe, hcrec, hnrec, hprec⟩ := setTrunk_relink s c n p hct hcn hcp hnp
    have hfold : (c :: rest).foldl (fun s c => setTrunk s c ((s n).trunk)) s =
        rest.foldl (fun s c => setTrunk s c ((s n).trunk))
          (setTrunk s c (some p)) := by
      rw [List.foldl_cons, hsn]
    have hs'n : (setTrunk s c (some p)) n = { s n with branches := (s n).branches.erase c } := hnrec
    have hs'trunk : ((setTrunk s c (some p)) n).trunk = some p := by
      rw [hs'n]
      exact hsn
    have hs'all : ∀ c₂ ∈ rest, ((setTrunk s c (some p)) c₂).trunk = some n := by
      intro c₂ h₂
      have hc₂c : c₂ ≠ c := fun h => hcrest (h ▸ h₂)
      have hc₂n : c₂ ≠ n := fun h => hnrest (h ▸ h₂)
      have hc₂p : c₂ ≠ p := fun h => hprest (h ▸ h₂)
      rw [hframe c₂ hc₂c hc₂n hc₂p]
      exact hall c₂ (List.mem_cons_of_mem c h₂)
    obtain ⟨ihframe, ihchild, ihn, ihp⟩ :=
      ih (setTrunk s c (some p)) hndrest hnrest hprest hnp hs'trunk hs'all
    refine ⟨?_, ?_, ?_, ?_⟩
    · intro m hmn hmp hml
      have hmc : m ≠ c := fun h => hml (h ▸ hcmem)
      have hmrest : m ∉ rest := fun h => hml (List.mem_cons_of_mem c h)
      rw [hfold, ihframe m hmn hmp hmrest, hframe m hmc hmn hmp]
    · intro c₂ h₂
      rcases List.mem_cons.mp h₂ with h₂ | h₂
      · subst h₂
        have hc₂ := ihframe c₂ (fun h => hcn h.symm) (fun h => hcp h.symm) hcrest
        rw [hfold, hc₂, hcrec]
        exact ⟨rfl, rfl⟩
      · have hc₂c : c₂ ≠ c := fun h => hcrest (h ▸ h₂)
        have hc₂n : c₂ ≠ n := fun h => hnrest (h ▸ h₂)
        have hc₂p : c₂ ≠ p := fun h => hprest (h ▸ h₂)
        obtain ⟨ht, hb⟩ := ihchild c₂ h₂
        rw [hfold]
        refine ⟨ht, ?_⟩
        rw [hb, hframe c₂ hc₂c hc₂n hc₂p]
    · rw [hfold, ihn, hs'n]
      show ((s n).branches.erase c) \ rest.toFinset =
        (s n).branches \ (c :: rest).toFinset
      ext x
      simp only [Finset.mem_sdiff, Finset.mem_erase, List.toFinset_cons,
        Finset.mem_insert, List.mem_toFinset]
      constructor
      · rintro ⟨⟨hxc, hx⟩, hxr⟩
        exact ⟨hx, fun h => h.elim hxc hxr⟩
      · rintro ⟨hx, hh⟩
        exact ⟨⟨fun h => hh (Or.inl h), hx⟩, fun h => hh (Or.inr h)⟩
    · rw [hfold, ihp, hprec]
      show (insert c (s p).branches) ∪ rest.toFinset =
        (s p).branches ∪ (c :: rest).toFinset
      ext x
      simp only [Finset.mem_union, Finset.mem_insert, List.toFinset_cons,
        List.mem_toFinset]
      tauto

theorem relink_fold_none (n : Nat) (l : List Nat) :
    ∀ (s : State), l.Nodup → n ∉ l →
      (s n).trunk = none →
      (∀ c ∈ l, (s c).trunk = some n) →
      (∀ m, m ≠ n → m ∉ l →
        (l.foldl (fun s c => setTrunk s c ((s n).trunk)) s) m = s m)
    ∧ (∀ c ∈ l,
        ((l.foldl (fun s c => setTrunk s c ((s n).trunk)) s) c).trunk = none
      ∧ ((l.foldl (fun s c => setTrunk s c ((s n).trunk)) s) c).branches =
          (s c).branches)
    ∧ ((l.foldl (fun s c => setTrunk s c ((s n).trunk)) s) n).branches =
        (s n).branches \ l.toFinset := by
  induction l with
  | nil =>
    intro s _ _ _ _
    refine ⟨fun m _ _ => rfl, fun c hc => absurd hc (List.not_mem_nil c), ?_⟩
    simp
  | cons c rest ih =>
    intro s hnd hnl hsn hall
    have hcmem : c ∈ c :: rest := List.mem_cons_self c rest
    have hcn : n ≠ c := fun h => hnl (h ▸ hcmem)
    have hct : (s c).trunk = some n := hall c hcmem
    have hcrest : c ∉ rest := (List.nodup_cons.mp hnd).1
    have hndrest : rest.Nodup := (List.nodup_cons.mp hnd).2
    have hnrest : n ∉ rest := fun h => hnl (List.mem_cons_of_mem c h)
    obtain ⟨hframe, hcrec, hnrec⟩ := setTrunk_unlink s c n hct hcn
    have hfold : (c :: rest).foldl (fun s c => setTrunk s c ((s n).trunk)) s =
        rest.foldl (fun s c => setTrunk s c ((s n).trunk))
          (setTrunk s c none) := by
      rw [List.foldl_cons, hsn]
    have hs'n : (setTrunk s c none) n = { s n with branches := (s n).branches.erase c } := hnrec
    have hs'trunk : ((setTrunk s c none) n).trunk = none := by
      rw [hs'n]
      exact hsn
    have hs'all : ∀ c₂ ∈ rest, ((setTrunk s c none) c₂).trunk = some n := by
      intro c₂ h₂
      have hc₂c : c₂ ≠ c := fun h => hcrest (h ▸ h₂)
      have hc₂n : c₂ ≠ n := fun h => hnrest (h ▸ h₂)
      rw [hframe c₂ hc₂c hc₂n]
      exact hall c₂ (List.mem_cons_of_mem c h₂)
    obtain ⟨ihframe, ihchild, ihn⟩ :=
      ih (setTrunk s c none) hndrest hnrest hs'trunk hs'all
    refine ⟨?_, ?_, ?_⟩
    · intro m hmn hml
      have hmc : m ≠ c := fun h => hml (h ▸ hcmem)
      have hmrest : m ∉ rest := fun h => hml (List.mem_cons_of_mem c h)
      rw [hfold, ihframe m hmn hmrest, hframe m hmc hmn]
    · intro c₂ h₂
      rcases List.mem_cons.mp h₂ with h₂ | h₂
      · subst h₂
        have hc₂ := ihframe c₂ (fun h => hcn h.symm) hcrest
        rw [hfold, hc₂, hcrec]
        exact ⟨rfl, rfl⟩
      · have hc₂c : c₂ ≠ c := fun h => hcrest (h ▸ h₂)
        have hc₂n : c₂ ≠ n := fun h => hnrest (h ▸ h₂)
        obtain ⟨ht, hb⟩ := ihchild c₂ h₂
        rw [hfold]
        refine ⟨ht, ?_⟩
        rw [hb, hframe c₂ hc₂c hc₂n]
    · rw [hfold, ihn, hs'n]
      show ((s n).branches.erase c) \ rest.toFinset =
        (s n).branches \ (c :: rest).toFinset
      ext x
      simp only [Finset.mem_sdiff, Finset.mem_erase, List.toFinset_cons,
        Finset.mem_insert, List.mem_toFinset]
      constructor
      · rintro ⟨⟨hxc, hx⟩, hxr⟩
        exact ⟨hx, fun h => h.elim hxc hxr⟩
      · rintro ⟨hx, hh⟩
        exact ⟨⟨fun h => hh (Or.inl h), hx⟩, fun h => hh (Or.inr h)⟩

/-- Claim C3: the `Reparent` strategy on node `n` of a consistent heap
(`l` enumerates `n`'s branch set without duplicates; `n` is not its own
ancestor at depth one or two, which is what the tree shape guarantees)
removes `n` from its trunk's branch set, relinks every child of `n` to `n`'s
former trunk (or to top level when `n` had none) while each child keeps its
own branch set, empties `n`'s branch set, and leaves every node other than
`n`, `n`'s trunk and `n`'s children completely unchanged — only `n` is
excised from the structure. -/
theorem reparent_spec (st : State) (n : Nat) (l : List Nat)
    (hc : Consistent st) (hl : l.Nodup)
    (hset : ∀ c, c ∈ l ↔ c ∈ (st n).branches)
    (hself : (st n).trunk ≠ some n)
    (hanc : ∀ p, (st n).trunk = some p → p ∉ l) :
    (∀ p, (st n).trunk = some p → n ∉ ((_reparent st n l) p).branches)
  ∧ (∀ c ∈ l, ((_reparent st n l) c).trunk = (st n).trunk
      ∧ ((_reparent st n l) c).branches = (st c).branches)
  ∧ (∀ p, (st n).trunk = some p →
      ((_reparent st n l) p).branches = ((st p).branches.erase n) ∪ l.toFinset)
  ∧ ((_reparent st n l) n).branches = ∅
  ∧ (∀ m, m ≠ n → m ∉ l → (st n).trunk ≠ some m → _reparent st n l m = st m) := by
  have hnl : n ∉ l := by
    intro h
    exact hself ((hc n n).1 ((hset n).1 h))
  have hsub : (st n).branches ⊆ l.toFinset := by
    intro x hx
    exact List.mem_toFinset.2 ((hset x).2 hx)
  cases htr : (st n).trunk with
  | none =>
    have hclr : clearFromTrunk st n = st := clearFromTrunk_of_none st n htr
    have hall : ∀ c ∈ l, (st c).trunk = some n := by
      intro c hcl
      exact (hc c n).1 ((hset c).1 hcl)
    obtain ⟨hframe, hchild, hn⟩ := relink_fold_none n l st hl hnl htr hall
    unfold _reparent
    rw [hclr]
    refine ⟨?_, ?_, ?_, ?_, ?_⟩
    · intro p hp
      exact Option.noConfusion hp
    · intro c hcl
      obtain ⟨ht, hb⟩ := hchild c hcl
      exact ⟨by rw [ht], hb⟩
    · intro p hp
      exact Option.noConfusion hp
    · rw [hn, Finset.sdiff_eq_empty_iff_subset]
      exact hsub
    · intro m hmn hml _
      exact hframe m hmn hml
  | some p =>
    have hpn : n ≠ p := by
      intro h
      exact hself (h ▸ htr)
    have hpl : p ∉ l := hanc p htr
    have hclr : clearFromTrunk st n = eraseBranch st p n := by
      unfold clearFromTrunk
      rw [htr]
    have hs₀trunk : ∀ m, ((eraseBranch st p n) m).trunk = (st m).trunk :=
      eraseBranch_trunk st p n
    have hs₀n : ((eraseBranch st p n) n).trunk = some p := by
      rw [hs₀trunk n]
      exact htr
    have hall : ∀ c ∈ l, ((eraseBranch st p n) c).trunk = some n := by
      intro c hcl
      rw [hs₀trunk c]
      exact (hc c n).1 ((hset c).1 hcl)
    obtain ⟨hframe, hchild, hn, hp⟩ :=
      relink_fold_some n p l (eraseBranch st p n) hl hnl hpl hpn hs₀n hall
    unfold _reparent
    rw [hclr]
    refine ⟨?_, ?_, ?_, ?_, ?_⟩
    · intro p' hp'
      have hpp : p' = p := (Option.some.inj hp').symm
      subst hpp
      rw [hp]
      intro hmem
      rcases Finset.mem_union.mp hmem with hmem | hmem
      · rw [eraseBranch_branches] at hmem
        rw [if_pos rfl] at hmem
        exact absurd hmem (Finset.not_mem_erase n _)
      · exact hnl (List.mem_toFinset.mp hmem)
    · intro c hcl
      have hcp : c ≠ p := fun h => hpl (h ▸ hcl)
      obtain ⟨ht, hb⟩ := hchild c hcl
      refine ⟨by rw [ht], ?_⟩
      rw [hb, eraseBranch_apply_ne st p n c hcp]
    · intro p' hp'
      have hpp : p' = p := (Option.some.inj hp').symm
      subst hpp
      rw [hp, eraseBranch_branches, if_pos rfl]
    · rw [hn, eraseBranch_branches, if_neg hpn,
        Finset.sdiff_eq_empty_iff_subset]
      exact hsub
    · intro m hmn hml hmtr
      have hmp : m ≠ p := by
        intro h
        exact hmtr (by rw [h])
      rw [hframe m hmn hmp hml, eraseBranch_apply_ne st p n m hmp]

/-- Branch-set confinement of `_reparent`: on a consistent heap with `l`
enumerating `n`'s branch set (and the tree-shape conditions on `n`'s trunk),
reparenting changes the branch set of no node other than `n` itself and `n`'s
trunk — every child keeps its branch set, and unrelated nodes are untouched. -/
theorem reparent_branches_frame (st : State) (n : Nat) (l : List Nat)
    (hc : Consistent st) (hl : l.Nodup)
    (hset : ∀ c, c ∈ l ↔ c ∈ (st n).branches)
    (hself : (st n).trunk ≠ some n)
    (hanc : ∀ p, (st n).trunk = some p → p ∉ l) :
    ∀ m, m ≠ n → (st n).trunk ≠ some m →
      ((_reparent st n l) m).branches = (st m).branches := by
  have hnl : n ∉ l := by
    intro h
    exact hself ((hc n n).1 ((hset n).1 h))
  cases htr : (st n).trunk with
  | none =>
    have hclr : clearFromTrunk st n = st := clearFromTrunk_of_none st n htr
    have hall : ∀ c ∈ l, (st c).trunk = some n := by
      intro c hcl
      exact (hc c n).1 ((hset c).1 hcl)
    obtain ⟨hframe, hchild, _⟩ := relink_fold_none n l st hl hnl htr hall
    intro m hmn _
    unfold _reparent
    rw [hclr]
    by_cases hml : m ∈ l
    · exact (hchild m hml).2
    · rw [hframe m hmn hml]
  | some p =>
    have hpn : n ≠ p := by
      intro h
      exact hself (h ▸ htr)
    have hpl : p ∉ l := hanc p htr
    have hclr : clearFromTrunk st n = eraseBranch st p n := by
      unfold clearFromTrunk
      rw [htr]
    have hall : ∀ c ∈ l, ((eraseBranch st p n) c).trunk = some n := by
      intro c hcl
      rw [eraseBranch_trunk]
      exact (hc c n).1 ((hset c).1 hcl)
    have hs₀n : ((eraseBranch st p n) n).trunk = some p := by
      rw [eraseBranch_trunk]
      exact htr
    obtain ⟨hframe, hchild, _, _⟩ :=
      relink_fold_some n p l (eraseBranch st p n) hl hnl hpl hpn hs₀n hall
    intro m hmn hmtr
    have hmp : m ≠ p := by
      intro h
      exact hmtr (by rw [h])
    unfold _reparent
    rw [hclr]
    by_cases hml : m ∈ l
    · rw [(hchild m hml).2, eraseBranch_apply_ne st p n m hmp]
    · rw [hframe m hmn hmp hml, eraseBranch_apply_ne st p n m hmp]

/-- Claim C10: frame property of the three cleanup strategies. `Idle` is the
identity; `Prune` changes no trunk link, mode or value-liveness of any node,
and changes nothing at all outside `n` and `n`'s trunk; `Reparent`
(enumerating the branch copy `l`) changes no mode or value-liveness of any
node, no trunk link outside the enumerated children, and — on a consistent
heap whose shape is a tree at `n` — no branch set outside `n` itself and
`n`'s trunk. -/
theorem cleanup_frame (st : State) (n : Nat) (l : List Nat) :
    _idle st n = st
  ∧ (∀ m, ((_prune st n) m).trunk = (st m).trunk)
  ∧ (∀ m, ((_prune st n) m).mode = (st m).mode)
  ∧ (∀ m, ((_prune st n) m).dataAlive = (st m).dataAlive)
  ∧ (∀ m, m ≠ n → (st n).trunk ≠ some m → _prune st n m = st m)
  ∧ (∀ m, ((_reparent st n l) m).mode = (st m).mode)
  ∧ (∀ m, ((_reparent st n l) m).dataAlive = (st m).dataAlive)
  ∧ (∀ m, m ∉ l → ((_reparent st n l) m).trunk = (st m).trunk)
  ∧ (Consistent st → l.Nodup → (∀ c, c ∈ l ↔ c ∈ (st n).branches) →
      (st n).trunk ≠ some n → (∀ p, (st n).trunk = some p → p ∉ l) →
      ∀ m, m ≠ n → (st n).trunk ≠ some m →
        ((_reparent st n l) m).branches = (st m).branches) := by
  refine ⟨rfl, _prune_trunk st n, _prune_mode st n, _prune_dataAlive st n,
    ?_, ?_, ?_, ?_, ?_⟩
  · intro m hmn htr
    unfold _prune
    rw [setNode_ne _ _ _ _ hmn]
    exact clearFromTrunk_apply_ne st n m htr
  · intro m
    unfold _reparent
    rw [relink_foldl_mode]
    exact clearFromTrunk_mode st n m
  · intro m
    unfold _reparent
    rw [relink_foldl_dataAlive]
    exact clearFromTrunk_dataAlive st n m
  · intro m hm
    unfold _reparent
    rw [relink_foldl_trunk n l _ m hm]
    exact clearFromTrunk_trunk st n m
  · intro hc hl hset hself hanc
    exact reparent_branches_frame st n l hc hl hset hself hanc

/-- Witness for C10: the frame property at the heap `ex3`, pruning or
reparenting node 1; the branch-set confinement is exercised at the child 2
and at the unrelated node 3. -/
theorem cleanup_frame_witness :
    ((_prune ex3 1) 2).trunk = (ex3 2).trunk
  ∧ _prune ex3 1 3 = ex3 3
  ∧ ((_reparent ex3 1 [2]) 1).trunk = (ex3 1).trunk
  ∧ ((_reparent ex3 1 [2]) 2).mode = (ex3 2).mode
  ∧ ((_reparent ex3 1 [2]) 2).branches = (ex3 2).branches
  ∧ ((_reparent ex3 1 [2]) 3).branches = (ex3 3).branches := by
  have h := cleanup_frame ex3 1 [2]
  have hbr := h.2.2.2.2.2.2.2.2 ex3_consistent (by simp)
    (by intro c; simp [ex3]) (by decide)
    (by
      intro p hp
      simp [ex3] at hp
      subst hp
      decide)
  exact ⟨h.2.1 2, h.2.2.2.2.1 3 (by decide) (by decide),
    h.2.2.2.2.2.2.2.1 1 (by decide), h.2.2.2.2.2.1 2,
    hbr 2 (by decide) (by decide), hbr 3 (by decide) (by decide)⟩

/-- Witness for C3: reparenting node 1 of `ex3` (trunk 0, branch set `{2}`
enumerated as `[2]`). -/
theorem reparent_spec_witness :
    (∀ p, (ex3 1).trunk = some p → 1 ∉ ((_reparent ex3 1 [2]) p).branches)
  ∧ (∀ c ∈ [2], ((_reparent ex3 1 [2]) c).trunk = (ex3 1).trunk
      ∧ ((_reparent ex3 1 [2]) c).branches = (ex3 c).branches)
  ∧ (∀ p, (ex3 1).trunk = some p →
      ((_reparent ex3 1 [2]) p).branches = ((ex3 p).branches.erase 1) ∪ List.toFinset [2])
  ∧ ((_reparent ex3 1 [2]) 1).branches = ∅
  ∧ (∀ m, m ≠ 1 → m ∉ [2] → (ex3 1).trunk ≠ some m → _reparent ex3 1 [2] m = ex3 m) :=
  reparent_spec ex3 1 [2] ex3_consistent (by simp)
    (by intro c; simp [ex3])
    (by decide)
    (by
      intro p hp
      simp [ex3] at hp
      subst hp
      decide)

/-- Claim C5: when the value of a live node expires and a caller-supplied
callback was registered, the `_remove` hook runs the callback first and the
resolved cleanup strategy second — also when the resolved strategy is the
`NO_CLEANUP` one (`Idle`). -/
theorem callback_before_cleanup (st : State) (n : Nat) (fuel : Nat)
    (s : Strategy) (h : _get_cleanup_method st n ((st n).mode) fuel = some s) :
    (_remove true true st n fuel).2 = [Event.userCallback, Event.cleanup s]
  ∧ ((st n).mode = CleanupMode.NO_CLEANUP →
      (_remove true true st n fuel).2 =
        [Event.userCallback, Event.cleanup Strategy.idle]) := by
  constructor
  · simp [_remove, h]
  · intro hm
    have hs : s = Strategy.idle := by
      rw [hm] at h
      simp [_get_cleanup_method] at h
      exact h.symm
    rw [← hs]
    simp [_remove, h]

/-- Witness for C5: node 0 of `ex3` (stored mode `DEFAULT`, no trunk)
resolves to `Prune`; the hook reports the user callback strictly before the
cleanup. -/
theorem callback_before_cleanup_witness :
    (_remove true true ex3 0 1).2 =
      [Event.userCallback, Event.cleanup Strategy.prune]
  ∧ ((ex3 0).mode = CleanupMode.NO_CLEANUP →
      (_remove true true ex3 0 1).2 =
        [Event.userCallback, Event.cleanup Strategy.idle]) :=
  callback_before_cleanup ex3 0 1 Strategy.prune
    (by simp [_get_cleanup_method, ex3])

/-- Counterexample to C6 as stated: with the node object already dead, the
`_remove` hook still runs the caller-supplied callback (`callback(wr)` is
invoked before the `if self:` liveness test), so the expiry is not a complete
no-op. -/
theorem dead_node_callback_counterexample :
    Event.userCallback ∈ (_remove true false ex3 1 5).2 := by
  simp [_remove]

/-- Claim C6 (amended): if the node object is no longer alive when its value
expires, the heap is unchanged and no cleanup strategy runs; a registered
caller-supplied callback, however, still runs. -/
theorem dead_node_cleanup_noop (hasCb : Bool) (st : State) (n fuel : Nat) :
    (_remove hasCb false st n fuel).1 = st
  ∧ (∀ s, Event.cleanup s ∉ (_remove hasCb false st n fuel).2)
  ∧ (_remove hasCb false st n fuel).2 =
      (if hasCb then [Event.userCallback] else []) := by
  refine ⟨rfl, ?_, rfl⟩
  intro s
  cases hasCb <;> simp [_remove]

/-!
## Traversal lemmas
-/

theorem PTree.size_pos (t : PTree) : 0 < t.size := by
  cases t with
  | node n ts =>
    rw [PTree.size]
    omega

theorem forestSize_eq_zero {ts : List PTree} (h : PTree.forestSize ts = 0) :
    ts = [] := by
  cases ts with
  | nil => rfl
  | cons t ts' =>
    rw [PTree.forestSize] at h
    have := PTree.size_pos t
    omega

theorem forestNodes_append (ts us : List PTree) :
    PTree.forestNodes (ts ++ us) =
      PTree.forestNodes ts ++ PTree.forestNodes us := by
  induction ts with
  | nil => simp [PTree.forestNodes]
  | cons t ts' ih =>
    rw [List.cons_append, PTree.forestNodes, PTree.forestNodes, ih,
      List.append_assoc]

theorem forestSize_append (ts us : List PTree) :
    PTree.forestSize (ts ++ us) =
      PTree.forestSize ts + PTree.forestSize us := by
  induction ts with
  | nil => simp [PTree.forestSize]
  | cons t ts' ih =>
    rw [List.cons_append, PTree.forestSize, PTree.forestSize, ih]
    omega

theorem forestSize_reverse (ts : List PTree) :
    PTree.forestSize ts.reverse = PTree.forestSize ts := by
  induction ts with
  | nil => rfl
  | cons t ts' ih =>
    rw [List.reverse_cons, forestSize_append, PTree.forestSize,
      PTree.forestSize, PTree.forestSize, ih]
    omega

theorem forestNodes_reverse_perm (ts : List PTree) :
    (PTree.forestNodes ts.reverse).Perm (PTree.forestNodes ts) := by
  induction ts with
  | nil => exact List.Perm.refl _
  | cons t ts' ih =>
    rw [List.reverse_cons, forestNodes_append]
    have h1 : PTree.forestNodes [t] = PTree.nodes t := by
      rw [PTree.forestNodes, PTree.forestNodes, List.append_nil]
    rw [h1, PTree.forestNodes]
    exact (List.perm_append_comm).trans (List.Perm.append_left _ ih)

/-- The breadth-first loop, seeded with the roots of a represented forest,
emits a permutation of the forest's nodes whenever the fuel is at least the
forest's total size. -/
theorem represents_node (br : Nat → List Nat) (n : Nat) (ts : List PTree) :
    Represents br (PTree.node n ts) ↔
      (ts.map PTree.id = br n ∧ ∀ t ∈ ts, Represents br t) := by
  rw [Represents]

theorem breadth_forest (br : Nat → List Nat) :
    ∀ (fuel : Nat) (ts : List PTree), (∀ t ∈ ts, Represents br t) →
      PTree.forestSize ts ≤ fuel →
      (breadth br fuel (ts.map PTree.id)).Perm (PTree.forestNodes ts) := by
  intro fuel
  induction fuel with
  | zero =>
    intro ts _ hsz
    have hnil : ts = [] := forestSize_eq_zero (Nat.le_zero.mp hsz)
    subst hnil
    simp [breadth, PTree.forestNodes]
  | succ k ih =>
    intro ts hrep hsz
    cases ts with
    | nil => simp [breadth, PTree.forestNodes]
    | cons t ts' =>
      obtain ⟨n, cs⟩ := t
      have hrephead : Represents br (PTree.node n cs) :=
        hrep _ (List.mem_cons_self _ _)
      obtain ⟨hbr, hsub⟩ := (represents_node br n cs).mp hrephead
      have hstep : breadth br (k + 1) ((PTree.node n cs :: ts').map PTree.id) =
          n :: breadth br k ((ts' ++ cs).map PTree.id) := by
        rw [List.map_cons]
        show n :: breadth br k (ts'.map PTree.id ++ br n) = _
        rw [← hbr, ← List.map_append]
      have hrep' : ∀ u ∈ ts' ++ cs, Represents br u := by
        intro u hu
        rcases List.mem_append.mp hu with hu | hu
        · exact hrep u (List.mem_cons_of_mem _ hu)
        · exact hsub u hu
      have hsz' : PTree.forestSize (ts' ++ cs) ≤ k := by
        rw [forestSize_append]
        rw [PTree.forestSize, PTree.size] at hsz
        omega
      have hperm := ih (ts' ++ cs) hrep' hsz'
      rw [hstep, forestNodes_append] at *
      rw [PTree.forestNodes, PTree.nodes]
      refine List.Perm.trans (List.Perm.cons n hperm) ?_
      rw [List.cons_append]
      exact List.Perm.cons n List.perm_append_comm

/-- The depth-first loop, seeded with the roots of a represented forest,
emits a permutation of the forest's nodes whenever the fuel is at least the
forest's total size. -/
theorem depth_forest (br : Nat → List Nat) :
    ∀ (fuel : Nat) (ts : List PTree), (∀ t ∈ ts, Represents br t) →
      PTree.forestSize ts ≤ fuel →
      (depth br fuel (ts.map PTree.id)).Perm (PTree.forestNodes ts) := by
  intro fuel
  induction fuel with
  | zero =>
    intro ts _ hsz
    have hnil : ts = [] := forestSize_eq_zero (Nat.le_zero.mp hsz)
    subst hnil
    simp [depth, PTree.forestNodes]
  | succ k ih =>
    intro ts hrep hsz
    cases ts with
    | nil => simp [depth, PTree.forestNodes]
    | cons t ts' =>
      obtain ⟨n, cs⟩ := t
      have hrephead : Represents br (PTree.node n cs) :=
        hrep _ (List.mem_cons_self _ _)
      obtain ⟨hbr, hsub⟩ := (represents_node br n cs).mp hrephead
      have hstep : depth br (k + 1) ((PTree.node n cs :: ts').map PTree.id) =
          n :: depth br k ((cs.reverse ++ ts').map PTree.id) := by
        rw [List.map_cons]
        show n :: depth br k ((br n).reverse ++ ts'.map PTree.id) = _
        rw [← hbr, ← List.map_reverse, ← List.map_append]
      have hrep' : ∀ u ∈ cs.reverse ++ ts', Represents br u := by
        intro u hu
        rcases List.mem_append.mp hu with hu | hu
        · exact hsub u (List.mem_reverse.mp hu)
        · exact hrep u (List.mem_cons_of_mem _ hu)
      have hsz' : PTree.forestSize (cs.reverse ++ ts') ≤ k := by
        rw [forestSize_append, forestSize_reverse]
        rw [PTree.forestSize, PTree.size] at hsz
        omega
      have hperm := ih (cs.reverse ++ ts') hrep' hsz'
      rw [hstep, forestNodes_append] at *
      rw [PTree.forestNodes, PTree.nodes]
      refine List.Perm.trans (List.Perm.cons n hperm) ?_
      rw [List.cons_append]
      exact List.Perm.cons n
        (List.Perm.append_right _ (forestNodes_reverse_perm cs))

/-- Claim C7: traversal completeness. For a finite tree `t` representing the
branch structure reachable from `t.id`, both the breadth-first and the
depth-first traversal seeded with `t.id` emit a permutation of the tree's
node list (the multiset of emitted nodes equals the subtree's node set), for
any sibling enumeration `br`; when the tree's nodes are distinct each node is
therefore emitted exactly once, without duplicates. -/
theorem traversal_complete (br : Nat → List Nat) (t : PTree) (fuel : Nat)
    (hrep : Represents br t) (hfuel : t.size ≤ fuel) :
    (breadth br fuel [t.id]).Perm t.nodes
  ∧ (depth br fuel [t.id]).Perm t.nodes
  ∧ (t.nodes.Nodup →
      (breadth br fuel [t.id]).Nodup ∧ (depth br fuel [t.id]).Nodup) := by
  have hmap : [t.id] = [t].map PTree.id := rfl
  have hfn : PTree.forestNodes [t] = t.nodes := by
    rw [PTree.forestNodes, PTree.forestNodes, List.append_nil]
  have hfs : PTree.forestSize [t] ≤ fuel := by
    rw [PTree.forestSize, PTree.forestSize]
    omega
  have hrepf : ∀ u ∈ [t], Represents br u := by
    intro u hu
    rw [List.mem_singleton.mp hu]
    exact hrep
  have hb := breadth_forest br fuel [t] hrepf hfs
  have hd := depth_forest br fuel [t] hrepf hfs
  rw [hfn] at hb hd
  rw [hmap]
  exact ⟨hb, hd, fun hnd => ⟨hb.nodup_iff.mpr hnd, hd.nodup_iff.mpr hnd⟩⟩

/-- Witness for C7: the three-node chain tree `tEx` with sibling enumeration
`brEx`. -/
theorem traversal_complete_witness :
    (breadth brEx 3 [tEx.id]).Perm tEx.nodes
  ∧ (depth brEx 3 [tEx.id]).Perm tEx.nodes
  ∧ (tEx.nodes.Nodup →
      (breadth brEx 3 [tEx.id]).Nodup ∧ (depth brEx 3 [tEx.id]).Nodup) :=
  traversal_complete brEx tEx 3
    (by
      refine (represents_node brEx 0 _).mpr ⟨rfl, ?_⟩
      intro u hu
      rw [List.mem_singleton.mp hu]
      refine (represents_node brEx 1 _).mpr ⟨rfl, ?_⟩
      intro v hv
      rw [List.mem_singleton.mp hv]
      exact (represents_node brEx 2 _).mpr
        ⟨rfl, fun w hw => absurd hw (List.not_mem_nil w)⟩)
    (by
      rw [show tEx.size = 3 from rfl])

theorem ancChain_cons {trunkOf : Nat → Option Nat} {n : Nat} {l : List Nat}
    (h : AncChain trunkOf n l) : ∃ t, l = n :: t := by
  cases h with
  | top _ => exact ⟨[], rfl⟩
  | step _ _ => exact ⟨_, rfl⟩

theorem towards_root_eq {trunkOf : Nat → Option Nat} {n : Nat} {l : List Nat}
    (h : AncChain trunkOf n l) :
    ∀ fuel, l.length ≤ fuel → towards_root trunkOf fuel n = l := by
  induction h with
  | top htop =>
    intro fuel hf
    cases fuel with
    | zero => simp at hf
    | succ k => simp [towards_root, htop]
  | step hstep _ ih =>
    intro fuel hf
    cases fuel with
    | zero => simp at hf
    | succ k =>
      simp only [towards_root, hstep]
      rw [ih k (by simpa using hf)]

theorem ancChain_getLast {trunkOf : Nat → Option Nat} {n : Nat} {l : List Nat}
    (h : AncChain trunkOf n l) :
    ∃ r, l.getLast? = some r ∧ trunkOf r = none := by
  induction h with
  | top htop => exact ⟨_, by simp, htop⟩
  | step _ hchain ih =>
    obtain ⟨r, hr, hnone⟩ := ih
    obtain ⟨t, rfl⟩ := ancChain_cons hchain
    exact ⟨r, by rw [List.getLast?_cons_cons]; exact hr, hnone⟩

/-- Claim C8: the towards-root traversal from a node whose ancestor chain is
`l` (the node itself, then each ancestor in turn, ending at the parentless
top, so `l.length = depth + 1`) emits exactly `l`: it emits `l.length` nodes,
begins with the node itself, and its last emission is the parentless
ancestor. -/
theorem towards_root_spec (trunkOf : Nat → Option Nat) (n : Nat) (l : List Nat)
    (fuel : Nat) (hchain : AncChain trunkOf n l) (hfuel : l.length ≤ fuel) :
    towards_root trunkOf fuel n = l
  ∧ (towards_root trunkOf fuel n).length = l.length
  ∧ (towards_root trunkOf fuel n).head? = some n
  ∧ (∃ r, (towards_root trunkOf fuel n).getLast? = some r ∧ trunkOf r = none) := by
  have heq := towards_root_eq hchain fuel hfuel
  obtain ⟨t, hl⟩ := ancChain_cons hchain
  refine ⟨heq, by rw [heq], by rw [heq, hl]; rfl, ?_⟩
  obtain ⟨r, hr, hnone⟩ := ancChain_getLast hchain
  exact ⟨r, by rw [heq]; exact hr, hnone⟩

/-- Witness for C8: the chain heap `ex3`, starting at the depth-2 node 2. -/
theorem towards_root_spec_witness :
    towards_root (fun m => (ex3 m).trunk) 3 2 = [2, 1, 0]
  ∧ (towards_root (fun m => (ex3 m).trunk) 3 2).length = [2, 1, 0].length
  ∧ (towards_root (fun m => (ex3 m).trunk) 3 2).head? = some 2
  ∧ (∃ r, (towards_root (fun m => (ex3 m).trunk) 3 2).getLast? = some r
      ∧ (ex3 r).trunk = none) :=
  towards_root_spec (fun m => (ex3 m).trunk) 2 [2, 1, 0] 3
    (AncChain.step rfl (AncChain.step rfl (AncChain.top rfl)))
    (by simp)

end WeakTree
